import Mathlib

/-!
Verification of the pylsm LSM-tree storage engine against its
natural-language specification.

The development shallowly embeds the Python sources of the `pylsm` package
(`bloom.py`, `wal.py`, `sstable.py`, `compaction.py`, `compression.py`,
`skiplist.py`, `db.py`).  Byte strings are modelled as `List Nat` (each
element a byte value), machine integers as `Nat`/`Int` with explicit
big-endian byte serialisation where the file formats need it, fallible
Python code (raised exceptions) as `Except`/`Option` results, and the
external library calls (`blake2b`, the `msgpack` codec, `heapq`) as an
abstract hash parameter, a codec restricted to the record grammar the WAL
actually writes, and a faithful transcription of CPython's `heapq`
algorithms respectively.
-/

namespace PyLsm

/-- Byte strings (Python `bytes`): a list of byte values. -/
abbrev Bytes := List Nat

/-- Lexicographic order on raw bytes, Python's `<` on `bytes`. -/
def bytesLt : Bytes → Bytes → Bool
  | [], [] => false
  | [], _ :: _ => true
  | _ :: _, [] => false
  | a :: as, b :: bs => if a < b then true else if b < a then false else bytesLt as bs

/-- Logical record `(key, value, tombstone)`, the tuple shape used by
`wal.Record` and `sstable.Record` (`tuple[bytes, Optional[bytes], bool]`). -/
abbrev Record := Bytes × Option Bytes × Bool

/-- Big-endian byte serialisation of `n` on `width` bytes, the shape produced
by `int.to_bytes(width, "big")` and `struct.pack` with `!I`/`!Q` fields
(meaningful when `n < 2 ^ (8 * width)`). -/
def beBytes (width n : Nat) : Bytes :=
  match width with
  | 0 => []
  | w + 1 => beBytes w (n / 256) ++ [n % 256]

/-- Big-endian interpretation of a byte string, Python's
`int.from_bytes(bs, "big")` (defined for any length, as in Python). -/
def beDecode (bs : Bytes) : Nat :=
  bs.foldl (fun acc b => acc * 256 + b) 0

/-! ## BloomFilter (`bloom.py`)

The 128-bit blake2b digest split into two 64-bit halves `(a, b)` by
`BloomFilter._hashes` is an external cryptographic primitive; it is modelled
by an abstract parameter `hash : Bytes → Nat × Nat` (the source function is
deterministic, which is all the no-false-negative property needs).  The
`bytearray` of `(m + 7) / 8` bytes is a `List Nat` of byte values. -/

/-- State of `bloom.BloomFilter`: bit count `m`, probe count `k`, and the
backing `bytearray`. -/
structure BloomFilter where
  m : Nat
  k : Nat
  bits : List Nat

namespace BloomFilter

/-- Embedding of `BloomFilter.__init__`: `self._bits = bytearray((m + 7) // 8)`. -/
def init (m k : Nat) : BloomFilter :=
  ⟨m, k, List.replicate ((m + 7) / 8) 0⟩

/-- Embedding of `BloomFilter._hashes`: the probe positions
`(a + i * b) % self.m` for `i in range(self.k)`, with `(a, b)` the two
unpacked 64-bit halves of the blake2b digest (abstracted by `hash`). -/
def hashes (hash : Bytes → Nat × Nat) (m k : Nat) (item : Bytes) : List Nat :=
  (List.range k).map fun i => ((hash item).1 + i * (hash item).2) % m

/-- One bit-set step of `BloomFilter.add`:
`self._bits[pos // 8] |= 1 << (pos % 8)`. -/
def setBit (bits : List Nat) (pos : Nat) : List Nat :=
  bits.set (pos / 8) ((bits.getD (pos / 8) 0) ||| (1 <<< (pos % 8)))

/-- One bit-test step of `BloomFilter.__contains__`:
`self._bits[pos // 8] & (1 << (pos % 8))` used as a truth value. -/
def testBit (bits : List Nat) (pos : Nat) : Bool :=
  (bits.getD (pos / 8) 0) &&& (1 <<< (pos % 8)) != 0

/-- Embedding of `BloomFilter.add`. -/
def add (hash : Bytes → Nat × Nat) (bf : BloomFilter) (item : Bytes) : BloomFilter :=
  { bf with bits := (hashes hash bf.m bf.k item).foldl setBit bf.bits }

/-- Embedding of `BloomFilter.__contains__`. -/
def contains (hash : Bytes → Nat × Nat) (bf : BloomFilter) (item : Bytes) : Bool :=
  (hashes hash bf.m bf.k item).all fun pos => testBit bf.bits pos

/-- Embedding of Python float division `a / b`, which raises
`ZeroDivisionError` when `b == 0`.  The IEEE-754 float values are modelled
as exact rationals; this is immaterial for the claims about
`from_capacity`, which concern only definedness. -/
def pyDiv (a b : ℚ) : Except Unit ℚ :=
  if b = 0 then .error () else .ok (a / b)

/-- Python `int(x)` applied to a float: truncation toward zero. -/
def pyInt (x : ℚ) : Int :=
  if 0 ≤ x then ⌊x⌋ else ⌈x⌉

/-- Embedding of `BloomFilter.from_capacity`:
`m = -n * math.log(fp) / (math.log(2) ** 2)`, then
`k = (m / n) * math.log(2)`, returning `cls(int(m), max(1, int(k)))`.
The transcendental constants `math.log(fp)` and `math.log(2)` are
abstracted as the parameters `lnFp` and `ln2`; the actual values are
nonzero, which is all the proofs need.  The second division is by the
integer `n` itself and raises `ZeroDivisionError` exactly when `n = 0`. -/
def from_capacity (lnFp ln2 : ℚ) (n : Nat) : Except Unit (Int × Int) := do
  let m ← pyDiv (-(n : ℚ) * lnFp) (ln2 ^ 2)
  let kdiv ← pyDiv m (n : ℚ)
  let k := kdiv * ln2
  .ok (pyInt m, max 1 (pyInt k))

end BloomFilter

/-! ## msgpack payload codec (`wal.py` payloads)

`wal.WAL` serialises `(key, value, tombstone)` with
`msgpack.packb(..., use_bin_type=True)`: a fixarray of three elements with
`bytes` as the bin family, `None` as nil and booleans as true/false.  The
decoder below is `msgpack.unpackb` restricted to that grammar; it agrees
with the library on every blob the WAL writes and on the torn-tail inputs
used by the claims (the empty blob and strict prefixes of valid payloads
all fail, as the library raises on incomplete input). -/

namespace Msgpack

/-- msgpack `bin 8/16/32` encoding of a byte string (tag byte, then the
length on 1, 2 or 4 big-endian bytes, then the raw bytes); `none` when the
length exceeds the bin32 limit (the library raises). -/
def packBin (b : Bytes) : Option Bytes :=
  if b.length < 256 then some (0xc4 :: (beBytes 1 b.length ++ b))
  else if b.length < 65536 then some (0xc5 :: (beBytes 2 b.length ++ b))
  else if b.length < 4294967296 then some (0xc6 :: (beBytes 4 b.length ++ b))
  else none

/-- msgpack encoding of the WAL payload tuple `(key, value, tombstone)`. -/
def packRecord : Record → Option Bytes
  | (key, value, tomb) => do
    let kb ← packBin key
    let vb ← match value with
      | none => some [0xc0]
      | some v => packBin v
    some (0x93 :: (kb ++ vb ++ [if tomb then 0xc3 else 0xc2]))

/-- Shared tail of the bin-family decoder: read a `w`-byte big-endian
length, then that many payload bytes; `none` when either read falls
short. -/
def parseBinLen (w : Nat) (rest : Bytes) : Option (Bytes × Bytes) :=
  if w ≤ rest.length then
    let l := beDecode (rest.take w)
    let body := rest.drop w
    if l ≤ body.length then some (body.take l, body.drop l) else none
  else none

/-- Decoder for the bin family; `none` on malformed or truncated input. -/
def parseBin : Bytes → Option (Bytes × Bytes)
  | tag :: rest =>
    if tag = 0xc4 then parseBinLen 1 rest
    else if tag = 0xc5 then parseBinLen 2 rest
    else if tag = 0xc6 then parseBinLen 4 rest
    else none
  | [] => none

/-- Decoder for the value position: nil or a bin byte string. -/
def parseValue : Bytes → Option (Option Bytes × Bytes)
  | tag :: rest =>
    if tag = 0xc0 then some (none, rest)
    else (parseBin (tag :: rest)).map fun p => (some p.1, p.2)
  | [] => none

/-- Decoder for the tombstone position: a msgpack boolean. -/
def parseBool : Bytes → Option (Bool × Bytes)
  | tag :: rest =>
    if tag = 0xc2 then some (false, rest)
    else if tag = 0xc3 then some (true, rest)
    else none
  | [] => none

/-- Embedding of `msgpack.unpackb` on WAL payload blobs: a 3-element
fixarray of key, optional value, and bool, consuming the whole input;
`none` (the library raises) otherwise. -/
def unpackRecord : Bytes → Option Record
  | tag :: rest =>
    if tag = 0x93 then do
      let (key, r1) ← parseBin rest
      let (value, r2) ← parseValue r1
      let (tomb, r3) ← parseBool r2
      if r3 = [] then some (key, value, tomb) else none
    else none
  | [] => none

end Msgpack

/-! ## Write-ahead log (`wal.py`) -/

namespace WAL

/-- Embedding of one `WAL.append(key, value, tombstone)`: the bytes
written to the segment are `len(rec).to_bytes(4, "big") + rec` with
`rec = msgpack.packb((key, value, tombstone), use_bin_type=True)`.
`none` models the `OverflowError` on a length that does not fit the
4-byte prefix. -/
def appendFrame (r : Record) : Option Bytes := do
  let payload ← Msgpack.packRecord r
  if payload.length < 4294967296 then some (beBytes 4 payload.length ++ payload)
  else none

/-- Loop of `WAL.replay`, with fuel on the iteration count (every
continuing iteration consumes at least five bytes, so `length + 1` fuel
suffices).  An empty `fp.read(4)` breaks the loop; otherwise the possibly
short length prefix is decoded by `int.from_bytes`, `length` bytes are
read (truncated at EOF exactly as `fp.read` is), and `msgpack.unpackb`
either yields a record or raises, the latter modelled as `.error ()`. -/
def replayGo : Nat → Bytes → Except Unit (List Record)
  | _, [] => .ok []
  | 0, _ :: _ => .error ()
  | fuel + 1, bs => do
    let nbytes := bs.take 4
    let length := beDecode nbytes
    let blob := (bs.drop 4).take length
    match Msgpack.unpackRecord blob with
    | none => .error ()
    | some r => do
      let rest ← replayGo fuel ((bs.drop 4).drop length)
      .ok (r :: rest)

/-- Embedding of `WAL.replay` on the byte content of one segment file. -/
def replay (bs : Bytes) : Except Unit (List Record) :=
  replayGo (bs.length + 1) bs

end WAL

/-! ## SSTable (`sstable.py`) -/

namespace SSTable

/-- Record serialisation in `SSTable.create`:
`_RECORD_HDR.pack(len(k), len(kv), tomb) + k + kv` with `kv = v or b""`
(struct format `!IIB`: two big-endian u32 fields and one byte). -/
def recordBytes : Record → Bytes
  | (k, v, tomb) =>
    let kv := v.getD []
    beBytes 4 k.length ++ beBytes 4 kv.length ++ [if tomb then 1 else 0] ++ k ++ kv

/-- Concatenated record section written by `SSTable.create`. -/
def recordsBytes (items : List Record) : Bytes :=
  (items.map recordBytes).flatten

/-- Sparse index accumulated by `SSTable.create`: an entry
`(key, file_offset)` for every record whose ordinal `i` satisfies
`i % _BLOCK == 0` with `_BLOCK = 64`. -/
def createIndexGo : List Record → Nat → Nat → List (Bytes × Nat)
  | [], _, _ => []
  | r :: rest, i, offset =>
    (if i % 64 = 0 then [(r.1, offset)] else [])
      ++ createIndexGo rest (i + 1) (offset + (recordBytes r).length)

/-- Sparse index of a table written by `SSTable.create`. -/
def createIndex (items : List Record) : List (Bytes × Nat) :=
  createIndexGo items 0 0

/-- Value of `index_off`, which `SSTable.create` also stores in the
in-memory handle as `_data_end`: the byte length of the record section. -/
def dataEnd (items : List Record) : Nat :=
  (recordsBytes items).length

/-- Full file image written by `SSTable.create`: records, then the
msgpack-encoded index blob, then the Bloom blob (`BloomFilter.to_bytes`),
then the 16-byte footer `_FOOTER.pack(index_off, bloom_off)` (struct
`!QQ`).  The two blobs are parameters: the index blob is the opaque
msgpack rendering of `createIndex` and the Bloom blob depends on the
blake2b digests of the keys; no claim depends on their byte content, only
on their position and length in the file. -/
def createFile (items : List Record) (indexBlob bloomBlob : Bytes) : Bytes :=
  recordsBytes items ++ indexBlob ++ bloomBlob
    ++ beBytes 8 (dataEnd items) ++ beBytes 8 (dataEnd items + indexBlob.length)

/-- Bloom sizing step of `SSTable.create`:
`bf = BloomFilter.from_capacity(len(items))`, the first statement executed
for the provided items. -/
def createBloomStep (lnFp ln2 : ℚ) (items : List Record) : Except Unit (Int × Int) :=
  BloomFilter.from_capacity lnFp ln2 items.length

/-- Loop of `SSTable.scan`, with fuel on the iteration count.  `size` is
`self.path.stat().st_size - _FOOTER.size` as a Python int; the loop
condition is `fp.tell() < size`.  The in-loop break is the source's
`if pos >= self._index[0][1] if self._index else size: break`: Python
parses this conditional expression as
`(pos >= self._index[0][1]) if self._index else size`, so with a nonempty
index the break condition is `pos >= index[0][1]`, and with an empty index
it is the truthiness of the bare integer `size`.  A short non-empty header
read makes `struct.unpack` raise, modelled as `.error ()`; the third tuple
component Python yields is the raw `tomb` header byte, modelled by its
truth value. -/
def scanGo (file : Bytes) (index : List (Bytes × Nat)) (size : Int) :
    Nat → Nat → Except Unit (List Record)
  | 0, _ => .error ()
  | fuel + 1, pos =>
    if (pos : Int) < size then
      let brk : Bool := match index with
        | e :: _ => decide (pos ≥ e.2)
        | [] => decide (size ≠ 0)
      if brk then .ok []
      else
        let hdr := (file.drop pos).take 9
        if hdr = [] then .ok []
        else if hdr.length < 9 then .error ()
        else
          let klen := beDecode (hdr.take 4)
          let vlen := beDecode ((hdr.drop 4).take 4)
          let tomb := hdr.getD 8 0
          let k := (file.drop (pos + 9)).take klen
          let kEnd := pos + 9 + k.length
          let v := if vlen != 0 then (file.drop kEnd).take vlen else []
          let vEnd := kEnd + v.length
          do
            let rest ← scanGo file index size fuel vEnd
            .ok ((k, if tomb != 0 then none else some v, tomb != 0) :: rest)
    else .ok []

/-- Embedding of `SSTable.scan` over the file bytes and the in-memory
sparse index `self._index`. -/
def scan (file : Bytes) (index : List (Bytes × Nat)) : Except Unit (List Record) :=
  scanGo file index ((file.length : Int) - 16) (file.length + 1) 0

/-- Python `<=` on bytes, expressed through the strict lexicographic
order. -/
def bytesLe (a b : Bytes) : Bool :=
  !bytesLt b a

/-- Binary search loop of `SSTable._get_sync`: on exit `lo` counts the
index entries whose key is `<= key`. -/
def bisectGo (index : List (Bytes × Nat)) (key : Bytes) :
    Nat → Nat → Nat → Nat
  | 0, lo, _ => lo
  | fuel + 1, lo, hi =>
    if lo < hi then
      let mid := (lo + hi) / 2
      if bytesLe (index.getD mid ([], 0)).1 key then
        bisectGo index key fuel (mid + 1) hi
      else bisectGo index key fuel lo mid
    else lo

/-- Result of the `while lo < hi` bisection in `SSTable._get_sync`. -/
def bisect (index : List (Bytes × Nat)) (key : Bytes) : Nat :=
  bisectGo index key (index.length + 1) 0 index.length

/-- Scan upper bound used by `SSTable._get_sync`:
`self._index[lo][1] if lo < len(self._index) else
self.path.stat().st_size - _FOOTER.size`.  Note that the fallback is the
file size minus the footer, the end of the Bloom blob, not the stored
`_data_end`. -/
def getEndOff (index : List (Bytes × Nat)) (lo : Nat) (fileSize : Nat) : Int :=
  if lo < index.length then ((index.getD lo ([], 0)).2 : Int)
  else (fileSize : Int) - 16

/-- Linear scan loop of `SSTable._get_sync`; reads the 9-byte header, the
key and the value (reads truncated at EOF as `fp.read` is), returns the
value (or `none` for a truthy tombstone byte) on an exact key match, and
otherwise continues until `fp.tell()` reaches the bound. -/
def getSyncGo (file : Bytes) (key : Bytes) (endOff : Int) :
    Nat → Nat → Except Unit (Option Bytes)
  | 0, _ => .error ()
  | fuel + 1, pos =>
    if (pos : Int) < endOff then
      let hdr := (file.drop pos).take 9
      if hdr = [] then .ok none
      else if hdr.length < 9 then .error ()
      else
        let klen := beDecode (hdr.take 4)
        let vlen := beDecode ((hdr.drop 4).take 4)
        let tomb := hdr.getD 8 0
        let k := (file.drop (pos + 9)).take klen
        let v := (file.drop (pos + 9 + k.length)).take vlen
        if k = key then .ok (if tomb != 0 then none else some v)
        else getSyncGo file key endOff fuel (pos + 9 + k.length + v.length)
    else .ok none

/-- Embedding of `SSTable._get_sync`.  The Bloom gate
`if self._bloom is not None and key not in self._bloom: return None`
depends on blake2b, so the membership answer is passed in as `bloomHit`. -/
def getSync (file : Bytes) (index : List (Bytes × Nat)) (bloomHit : Bool)
    (key : Bytes) : Except Unit (Option Bytes) :=
  if !bloomHit then .ok none
  else
    let lo := bisect index key
    let start := if lo = 0 then 0 else (index.getD (lo - 1) ([], 0)).2
    getSyncGo file key (getEndOff index lo file.length) (file.length + 1) start

end SSTable

/-! ## Merge iterator (`compaction.py`)

`LeveledCompaction._merge_iterators` drives a `heapq` heap whose entries
are `(item[0], item, it)`: the record key, the record tuple itself and the
generator object.  The heap functions below are a transcription of
CPython's `heapq.heappush`/`heappop` (`_siftdown`/`_siftup`).  Python
tuple comparison is lexicographic; comparing the `Optional[bytes]` value
components `None` versus `bytes`, or two generator objects, raises
`TypeError` — the embedding totalises those cases (`none` first, iterator
index order) and no run used in a theorem reaches them. -/

namespace Compaction

/-- Python `<` on the `Optional[bytes]` value slot of a record tuple. -/
def valLt : Option Bytes → Option Bytes → Bool
  | none, none => false
  | none, some _ => true
  | some _, none => false
  | some a, some b => bytesLt a b

/-- Python `<` on bool (`False < True`). -/
def boolLt (a b : Bool) : Bool := !a && b

/-- Python `<` on record triples, lexicographic. -/
def recLt (r s : Record) : Bool :=
  if bytesLt r.1 s.1 then true
  else if bytesLt s.1 r.1 then false
  else if valLt r.2.1 s.2.1 then true
  else if valLt s.2.1 r.2.1 then false
  else boolLt r.2.2 s.2.2

/-- Heap entry `(item[0], item, it)` with the iterator identified by its
position in the `iterators` list. -/
abbrev Entry := Bytes × Record × Nat

/-- Python `<` on heap entries, lexicographic on the triple. -/
def entryLt (a b : Entry) : Bool :=
  if bytesLt a.1 b.1 then true
  else if bytesLt b.1 a.1 then false
  else if recLt a.2.1 b.2.1 then true
  else if recLt b.2.1 a.2.1 then false
  else decide (a.2.2 < b.2.2)

/-- CPython `heapq._siftdown(heap, startpos, pos)`, with the moved item
(read once at entry as `newitem = heap[pos]`) passed explicitly; `fuel`
bounds the upward walk (the position strictly decreases, so `pos` steps
always suffice). -/
def siftdownGo (startpos : Nat) (newitem : Entry) (heap : List Entry) :
    Nat → Nat → List Entry
  | pos, fuel + 1 =>
    if startpos < pos then
      let parentpos := (pos - 1) / 2
      let parent := heap.getD parentpos default
      if entryLt newitem parent then
        siftdownGo startpos newitem (heap.set pos parent) parentpos fuel
      else heap.set pos newitem
    else heap.set pos newitem
  | pos, 0 => heap.set pos newitem

/-- Loop of CPython `heapq._siftup`: walk down to a leaf following the
smaller child; fuel bounds the walk by the heap size. -/
def siftupGo (heap : List Entry) (endpos pos fuel : Nat) : List Entry × Nat :=
  match fuel with
  | 0 => (heap, pos)
  | fuel + 1 =>
    let childpos := 2 * pos + 1
    if childpos < endpos then
      let rightpos := childpos + 1
      let c :=
        if rightpos < endpos
            && !entryLt (heap.getD childpos default) (heap.getD rightpos default)
        then rightpos
        else childpos
      siftupGo (heap.set pos (heap.getD c default)) endpos c fuel
    else (heap, pos)

/-- CPython `heapq._siftup(heap, pos)`. -/
def siftup (heap : List Entry) (pos : Nat) : List Entry :=
  let newitem := heap.getD pos default
  let res := siftupGo heap heap.length pos (heap.length + 1)
  siftdownGo pos newitem res.1 res.2 res.2

/-- CPython `heapq.heappush`. -/
def heappush (heap : List Entry) (item : Entry) : List Entry :=
  siftdownGo 0 item (heap ++ [item]) heap.length heap.length

/-- CPython `heapq.heappop`: pop the last element; if the heap is still
nonempty, move it to the root and sift up. -/
def heappop : List Entry → Option (Entry × List Entry)
  | [] => none
  | x :: xs =>
    let lastelt := (x :: xs).getLast (by simp)
    match h : (x :: xs).dropLast with
    | [] => some (lastelt, [])
    | r0 :: rs => some (r0, siftup ((r0 :: rs).set 0 lastelt) 0)

/-- Initialisation of `_merge_iterators`: push the first item of every
non-exhausted iterator, and keep the unconsumed remainders. -/
def mergeInit (its : List (List Record)) : List Entry × List (List Record) :=
  (its.enum.foldl
    (fun h p =>
      match p.2 with
      | [] => h
      | r :: _ => heappush h (r.1, r, p.1))
    [],
   its.map (List.drop 1))

/-- Main loop of `_merge_iterators`: pop, emit unless the key equals
`last_key`, then push the next item of the popped entry's iterator.  Fuel
bounds the iteration count by the total number of records. -/
def mergeGo : Nat → List Entry → List (List Record) → Option Bytes → List Record
  | 0, _, _, _ => []
  | fuel + 1, heap, streams, lastKey =>
    match heappop heap with
    | none => []
    | some (e, heap1) =>
      let key := e.1
      let emit := decide (lastKey ≠ some key)
      let next :=
        match streams.getD e.2.2 [] with
        | [] => (heap1, streams)
        | r :: rest => (heappush heap1 (r.1, r, e.2.2), streams.set e.2.2 rest)
      (if emit then [e.2.1] else [])
        ++ mergeGo fuel next.1 next.2 (if emit then some key else lastKey)

/-- Embedding of `LeveledCompaction._merge_iterators` on materialised
input streams (in the order of the `iterators` argument, so stream 0 is
the newest table when called from `compact`). -/
def mergeIterators (its : List (List Record)) : List Record :=
  let ini := mergeInit its
  mergeGo ((its.map List.length).sum + 1) ini.1 ini.2 none

end Compaction

/-! ## Engine (`db.py`)

The embedding models the engine state (memtable, SSTable list newest
first, current WAL segment number, and the on-disk WAL segments) and the
methods `DB.open` (its WAL-recovery steps), `DB.set`, `DB.delete`,
`DB.get` and `DB._flush`.  The `asyncio` plumbing carries no data flow for
these claims; `DB.open`'s final step and the compaction trigger call
`self._compaction_loop()` and `self._compact_level0()`, methods that exist
nowhere in the source (an `AttributeError` at runtime), so the embedding
of `_flush` returns `none` when the trigger fires and the background task
is omitted. -/

namespace DB

/-- Memtable model: the key-to-stored-value association realised by
`SkipList[bytes, bytes | None]`; `set` overwrites in place and keys stay
unique.  Iteration order is immaterial because `DB._flush` sorts. -/
abbrev Memtable := List (Bytes × Option Bytes)

/-- Embedding of `SkipList.set` at the association level. -/
def memSet (mem : Memtable) (k : Bytes) (v : Option Bytes) : Memtable :=
  match mem with
  | [] => [(k, v)]
  | e :: rest => if e.1 = k then (k, v) :: rest else e :: memSet rest k v

/-- Embedding of `SkipList.get` as observed by `DB.get`: the stored value
(`None` for a tombstone) or `None` when the key is absent; the caller
cannot tell the two apart. -/
def memGetFlat (mem : Memtable) (k : Bytes) : Option Bytes :=
  match mem.find? (fun e => e.1 == k) with
  | some e => e.2
  | none => none

/-- Embedding of `DB._mem_size`:
`sum(len(k) + (len(v) if v else 0) for k, v in self._mem)`. -/
def memSize (mem : Memtable) : Nat :=
  (mem.map fun e => e.1.length + (match e.2 with | some v => v.length | none => 0)).sum

/-- Records of one SSTable, as `DB._flush` writes them. -/
abbrev Table := List Record

/-- Record-level model of `SSTable.get` (`return None if tomb else v`):
this is what `_get_sync` returns on the well-formed tables `_flush`
writes, with the Bloom gate unable to reject a present key (no false
negatives, `BloomFilter.contains_foldl_add`). -/
def tableGet (t : Table) (k : Bytes) : Option Bytes :=
  match t.find? (fun r => r.1 == k) with
  | some r => if r.2.2 then none else r.2.1
  | none => none

/-- SSTable search loop of `DB.get`
(`for sst in self._sstables: if (val := await sst.get(key)) is not None`):
the first non-`None` answer wins; a tombstone answer and a miss are both
`None` and fall through to older tables. -/
def firstTableHit : List Table → Bytes → Option Bytes
  | [], _ => none
  | t :: ts, k =>
    match tableGet t k with
    | some v => some v
    | none => firstTableHit ts k

/-- Engine state: memtable, SSTables newest first (`self._sstables`),
current WAL segment number (`self._wal._seq`), and the on-disk WAL
segment files with their record contents. -/
structure DBState where
  mem : Memtable
  tables : List Table
  walSeq : Nat
  walSegs : List (Nat × List Record)

/-- Embedding of `DB.get`. -/
def get (st : DBState) (key : Bytes) : Option Bytes :=
  match memGetFlat st.mem key with
  | some val => some val
  | none => firstTableHit st.tables key

/-- Append a record to the WAL segment file numbered `seq` (creating it
when absent, as `open(path, "ab")` does). -/
def walAppendCur (segs : List (Nat × List Record)) (seq : Nat) (r : Record) :
    List (Nat × List Record) :=
  match segs with
  | [] => [(seq, [r])]
  | e :: rest =>
    if e.1 = seq then (e.1, e.2 ++ [r]) :: rest else e :: walAppendCur rest seq r

/-- Ensure the WAL segment file numbered `seq` exists (`WAL.open` with
mode `"ab"`: creates an empty file, or appends to an existing one). -/
def walEnsure (segs : List (Nat × List Record)) (seq : Nat) :
    List (Nat × List Record) :=
  if segs.any (fun e => e.1 == seq) then segs else segs ++ [(seq, [])]

/-- Insertion of one segment into a seq-sorted list (for
`sorted(wal_dir.glob(...), key=WAL._parse_seq)`). -/
def insertSeg (e : Nat × List Record) : List (Nat × List Record) → List (Nat × List Record)
  | [] => [e]
  | f :: rest => if f.1 < e.1 then f :: insertSeg e rest else e :: f :: rest

/-- Sort segments by sequence number ascending. -/
def sortSegs : List (Nat × List Record) → List (Nat × List Record)
  | [] => []
  | e :: rest => insertSeg e (sortSegs rest)

/-- Embedding of `DB.open` steps 1–3 on the persistent state left behind
by a previous session: load SSTables (newest first, unchanged), replay
every WAL segment in seq order into a fresh memtable via
`self._mem.set(k, None if tomb else v)`, then open a fresh segment with
`seq = max(existing) + 1` (0 when there are none). -/
def openDB (tables : List Table) (walSegs : List (Nat × List Record)) : DBState :=
  let mem := (sortSegs walSegs).foldl
    (fun m seg => seg.2.foldl
      (fun m r => memSet m r.1 (if r.2.2 then none else r.2.1)) m)
    []
  let nextSeq :=
    match (walSegs.map Prod.fst).max? with
    | some m => m + 1
    | none => 0
  { mem := mem, tables := tables, walSeq := nextSeq,
    walSegs := walEnsure walSegs nextSeq }

/-- Insertion step of Python `sorted` on the items tuples of `_flush`
(keys are unique in a memtable, so ordering by key reproduces the tuple
sort). -/
def insertRecord (r : Record) : List Record → List Record
  | [] => [r]
  | s :: rest => if bytesLt s.1 r.1 then s :: insertRecord r rest else r :: s :: rest

/-- Python `sorted((k, v, v is None) for k, v in self._mem)`. -/
def sortRecords : List Record → List Record
  | [] => []
  | r :: rest => insertRecord r (sortRecords rest)

/-- Memtable flush threshold `_MEMTABLE_LIMIT = 512 * 1024`. -/
def MEMTABLE_LIMIT : Nat := 512 * 1024

/-- Embedding of `DB._flush`: freeze the memtable into the sorted items
list `(k, v, v is None)`, rotate the WAL to segment
`len(self._sstables) + 1` (evaluated before the insert), write the table
and insert it at the head of `self._sstables`; `none` when the compaction
trigger fires and control reaches the missing `_compact_level0`. -/
def flush (st : DBState) : Option DBState :=
  let items := sortRecords (st.mem.map fun e => (e.1, e.2, e.2.isNone))
  let newSeq := st.tables.length + 1
  let st1 : DBState :=
    { mem := [], tables := items :: st.tables, walSeq := newSeq,
      walSegs := walEnsure st.walSegs newSeq }
  if st1.tables.length > 4 then none else some st1

/-- Embedding of `DB.set`: append to the WAL, insert into the memtable,
flush when `_mem_size() >= _MEMTABLE_LIMIT`. -/
def set (st : DBState) (key value : Bytes) : Option DBState :=
  let st1 : DBState :=
    { st with walSegs := walAppendCur st.walSegs st.walSeq (key, some value, false),
              mem := memSet st.mem key (some value) }
  if MEMTABLE_LIMIT ≤ memSize st1.mem then flush st1 else some st1

/-- Embedding of `DB.delete`: append a tombstone record to the WAL and
store `None` in the memtable. -/
def delete (st : DBState) (key : Bytes) : Option DBState :=
  let st1 : DBState :=
    { st with walSegs := walAppendCur st.walSegs st.walSeq (key, none, true),
              mem := memSet st.mem key none }
  if MEMTABLE_LIMIT ≤ memSize st1.mem then flush st1 else some st1

end DB

/-! ## Prefix compression (`compression.py`) -/

namespace PrefixCompression

/-- Common-prefix length loop of `compress_keys`. -/
def commonPrefixLen : Bytes → Bytes → Nat
  | a :: as, b :: bs => if a = b then commonPrefixLen as bs + 1 else 0
  | _, _ => 0

/-- Suffix-extraction loop of `compress_keys` over `keys[1:]`, carrying
`last_key`. -/
def compressGo (lastKey : Bytes) : List Bytes → List Bytes × List Nat
  | [] => ([], [])
  | key :: rest =>
    let plen := commonPrefixLen lastKey key
    let next := compressGo key rest
    (key.drop plen :: next.1, plen :: next.2)

/-- Embedding of `PrefixCompression.compress_keys`. -/
def compress_keys : List Bytes → List Bytes × List Nat
  | [] => ([], [])
  | k0 :: rest =>
    let next := compressGo k0 rest
    (k0 :: next.1, 0 :: next.2)

/-- Reconstruction loop of `decompress_keys` over
`zip(compressed[1:], prefix_lengths[1:])`, carrying `last_key`. -/
def decompressGo (lastKey : Bytes) : List Bytes → List Nat → List Bytes
  | suffix :: srest, plen :: lrest =>
    let key := lastKey.take plen ++ suffix
    key :: decompressGo key srest lrest
  | _, _ => []

/-- Embedding of `PrefixCompression.decompress_keys`. -/
def decompress_keys : List Bytes → List Nat → List Bytes
  | [], _ => []
  | c0 :: crest, ls => c0 :: decompressGo c0 crest (ls.drop 1)

end PrefixCompression

/-! ## Concrete inputs used by witnesses and counterexamples -/

/-- Spec §8 scenario 6 (and `tests/test_sstable.py` sample data):
`[(b"key1", b"value1", False), (b"key2", b"value2", False),
(b"key3", None, True), (b"key4", b"value4", False)]` as byte values. -/
def sampleItems : List Record :=
  [([107, 101, 121, 49], some [118, 97, 108, 117, 101, 49], false),
   ([107, 101, 121, 50], some [118, 97, 108, 117, 101, 50], false),
   ([107, 101, 121, 51], none, true),
   ([107, 101, 121, 52], some [118, 97, 108, 117, 101, 52], false)]

/-- One-record table `[(b"k", b"v", False)]`. -/
def oneItem : List Record := [([107], some [118], false)]

/-- A value exactly at the flush threshold, `b"a" * _MEMTABLE_LIMIT`, so
a single `set` drives `_mem_size()` past the limit and triggers
`DB._flush` inside `DB.set`. -/
def bigValue : Bytes := List.replicate DB.MEMTABLE_LIMIT 97

/-! ## Theorems -/

theorem beDecode_append (xs ys : Bytes) :
    beDecode (xs ++ ys) = ys.foldl (fun acc b => acc * 256 + b) (beDecode xs) := by
  simp [beDecode, List.foldl_append]

theorem beBytes_length (width n : Nat) : (beBytes width n).length = width := by
  induction width generalizing n with
  | zero => rfl
  | succ w ih => simp [beBytes, ih]

theorem beDecode_beBytes (width n : Nat) (h : n < 2 ^ (8 * width)) :
    beDecode (beBytes width n) = n := by
  induction width generalizing n with
  | zero =>
    simp [beBytes, beDecode]
    omega
  | succ w ih =>
    have hdiv : n / 256 < 2 ^ (8 * w) := by
      have h256 : (256 : Nat) = 2 ^ 8 := by norm_num
      rw [Nat.div_lt_iff_lt_mul (by norm_num : 0 < 256), h256, ← pow_add]
      have heq : 8 * w + 8 = 8 * (w + 1) := by ring
      rw [heq]
      exact h
    have hrec := ih (n / 256) hdiv
    show beDecode (beBytes w (n / 256) ++ [n % 256]) = n
    rw [beDecode_append]
    simp only [List.foldl_cons, List.foldl_nil]
    rw [hrec]
    omega

namespace BloomFilter

theorem length_setBit (bits : List Nat) (pos : Nat) :
    (setBit bits pos).length = bits.length := by
  simp [setBit]

theorem getD_set_bits (l : List Nat) (i j v : Nat) :
    (l.set i v).getD j 0
      = if i = j ∧ i < l.length then v else l.getD j 0 := by
  by_cases hij : i = j
  · subst hij
    by_cases hlen : i < l.length
    · simp [List.getD_eq_getElem?_getD, List.getElem?_set_self hlen, hlen]
    · rw [List.set_eq_of_length_le (by omega)]
      simp [hlen]
  · simp [List.getD_eq_getElem?_getD, List.getElem?_set_ne hij, hij]

theorem testBit_eq_testBit (bits : List Nat) (pos : Nat) :
    testBit bits pos = (bits.getD (pos / 8) 0).testBit (pos % 8) := by
  rw [testBit, Nat.one_shiftLeft, Nat.and_two_pow]
  cases h : (bits.getD (pos / 8) 0).testBit (pos % 8)
  · simp [h]
  · simp [h, Nat.pow_eq_zero]

theorem testBit_setBit_self (bits : List Nat) (pos : Nat)
    (h : pos / 8 < bits.length) : testBit (setBit bits pos) pos = true := by
  rw [testBit_eq_testBit, setBit, getD_set_bits, if_pos ⟨rfl, h⟩]
  rw [Nat.testBit_or, Nat.one_shiftLeft, Nat.testBit_two_pow_self]
  simp

theorem testBit_setBit_mono (bits : List Nat) (p q : Nat)
    (h : testBit bits p = true) : testBit (setBit bits q) p = true := by
  rw [testBit_eq_testBit] at h ⊢
  rw [setBit, getD_set_bits]
  by_cases hcond : q / 8 = p / 8 ∧ q / 8 < bits.length
  · rw [if_pos hcond, Nat.testBit_or, hcond.1, h]
    simp
  · rw [if_neg hcond]
    exact h

theorem length_foldl_setBit (ps : List Nat) (bits : List Nat) :
    (ps.foldl setBit bits).length = bits.length := by
  induction ps generalizing bits with
  | nil => rfl
  | cons p ps ih => simp [List.foldl_cons, ih, length_setBit]

theorem testBit_foldl_setBit_mono (ps : List Nat) (bits : List Nat) (p : Nat)
    (h : testBit bits p = true) : testBit (ps.foldl setBit bits) p = true := by
  induction ps generalizing bits with
  | nil => exact h
  | cons q qs ih => exact ih _ (testBit_setBit_mono _ _ _ h)

theorem testBit_foldl_setBit_self (ps : List Nat) (bits : List Nat)
    (hall : ∀ p ∈ ps, p / 8 < bits.length) (p : Nat) (hp : p ∈ ps) :
    testBit (ps.foldl setBit bits) p = true := by
  induction ps generalizing bits with
  | nil => cases hp
  | cons q qs ih =>
    rw [List.foldl_cons]
    rcases List.mem_cons.mp hp with rfl | hmem
    · exact testBit_foldl_setBit_mono _ _ _
        (testBit_setBit_self _ _ (hall p (List.mem_cons_self _ _)))
    · exact ih _ (fun r hr => by
        rw [length_setBit]; exact hall r (List.mem_cons_of_mem _ hr)) hmem

theorem hashes_div8_lt (hash : Bytes → Nat × Nat) (m k : Nat) (item : Bytes)
    (hm : 1 ≤ m) (p : Nat) (hp : p ∈ hashes hash m k item) :
    p / 8 < (m + 7) / 8 := by
  have hlt : p < m := by
    simp only [hashes, List.mem_map] at hp
    obtain ⟨i, _, rfl⟩ := hp
    exact Nat.mod_lt _ (by omega)
  have h1 : (p + 8) / 8 = p / 8 + 1 := Nat.add_div_right p (by norm_num)
  have h2 : (p + 8) / 8 ≤ (m + 7) / 8 := Nat.div_le_div_right (by omega)
  omega

theorem contains_add_self (hash : Bytes → Nat × Nat) (bf : BloomFilter) (item : Bytes)
    (hm : 1 ≤ bf.m) (hlen : bf.bits.length = (bf.m + 7) / 8) :
    contains hash (add hash bf item) item = true := by
  simp only [contains, add, List.all_eq_true]
  intro pos hpos
  refine testBit_foldl_setBit_self _ _ (fun p hp => ?_) pos hpos
  rw [hlen]
  exact hashes_div8_lt hash bf.m bf.k item hm p hp

theorem contains_mono_add (hash : Bytes → Nat × Nat) (bf : BloomFilter)
    (item key : Bytes) (h : contains hash bf key = true) :
    contains hash (add hash bf item) key = true := by
  simp only [contains, add, List.all_eq_true] at h ⊢
  intro pos hpos
  exact testBit_foldl_setBit_mono _ _ _ (h pos hpos)

theorem contains_mono_foldl_add (hash : Bytes → Nat × Nat) (keys : List Bytes)
    (bf : BloomFilter) (key : Bytes) (h : contains hash bf key = true) :
    contains hash (keys.foldl (add hash) bf) key = true := by
  induction keys generalizing bf with
  | nil => exact h
  | cons k0 ks ih => exact ih _ (contains_mono_add hash bf k0 key h)

theorem length_add (hash : Bytes → Nat × Nat) (bf : BloomFilter) (item : Bytes) :
    (add hash bf item).bits.length = bf.bits.length := by
  simp [add, length_foldl_setBit]

theorem contains_foldl_add (hash : Bytes → Nat × Nat) (keys : List Bytes)
    (key : Bytes) (bf : BloomFilter) (hm : 1 ≤ bf.m)
    (hlen : bf.bits.length = (bf.m + 7) / 8) (hkey : key ∈ keys) :
    contains hash (keys.foldl (add hash) bf) key = true := by
  induction keys generalizing bf with
  | nil => cases hkey
  | cons k0 ks ih =>
    rw [List.foldl_cons]
    rcases List.mem_cons.mp hkey with rfl | hmem
    · exact contains_mono_foldl_add hash ks _ key (contains_add_self hash bf key hm hlen)
    · exact ih _ hm (by rw [length_add]; exact hlen) hmem

end BloomFilter


/-- C8: for every BloomFilter with `m >= 1` bits and every finite list of
keys added to it, `contains` returns true for each added key: the filter
has no false negatives.  Proved for every deterministic hash function,
hence in particular for the blake2b-based `_hashes`. -/
theorem claim_C8_bloom_no_false_negatives (hash : Bytes → Nat × Nat)
    (m k : Nat) (keys : List Bytes) (key : Bytes) (hm : 1 ≤ m)
    (hkey : key ∈ keys) :
    BloomFilter.contains hash
      (keys.foldl (BloomFilter.add hash) (BloomFilter.init m k)) key = true := by
  apply BloomFilter.contains_foldl_add hash keys key _ hm _ hkey
  simp [BloomFilter.init]

/-- Witness for C8 at a concrete filter, hash and key list. -/
theorem claim_C8_bloom_no_false_negatives_witness :
    1 ≤ 8 ∧ ([1] : Bytes) ∈ [([1] : Bytes), [2]] ∧
      BloomFilter.contains (fun _ => (3, 5))
        ([([1] : Bytes), [2]].foldl (BloomFilter.add (fun _ => (3, 5)))
          (BloomFilter.init 8 2)) [1] = true :=
  ⟨by norm_num, by simp,
   claim_C8_bloom_no_false_negatives (fun _ => (3, 5)) 8 2 [[1], [2]] [1]
     (by norm_num) (by simp)⟩

/-- C9: `BloomFilter.from_capacity` divides by `n` when computing `k`, so
it is defined only for `n >= 1` and raises `ZeroDivisionError` at `n = 0`;
consequently the Bloom sizing step of `SSTable.create`, which calls it
with `len(items)`, requires a non-empty items sequence to be total.  The
hypothesis `ln2 /= 0` records that `math.log(2)` is nonzero. -/
theorem claim_C9_from_capacity_requires_nonempty (lnFp ln2 : ℚ)
    (h2 : ln2 ≠ 0) :
    SSTable.createBloomStep lnFp ln2 [] = .error () ∧
      ∀ items : List Record, items ≠ [] →
        (SSTable.createBloomStep lnFp ln2 items).isOk = true := by
  have hsq : (ln2 ^ 2 : ℚ) ≠ 0 := pow_ne_zero 2 h2
  constructor
  · show BloomFilter.from_capacity lnFp ln2 0 = .error ()
    simp [BloomFilter.from_capacity, BloomFilter.pyDiv, hsq, Bind.bind, Except.bind]
  · intro items hne
    have hn : (items.length : ℚ) ≠ 0 := by
      have hpos : 0 < items.length := List.length_pos.mpr hne
      exact_mod_cast Nat.pos_iff_ne_zero.mp hpos
    simp [SSTable.createBloomStep, BloomFilter.from_capacity, BloomFilter.pyDiv,
      hsq, hn, Except.isOk, Except.toBool, Bind.bind, Except.bind]

/-- Witness for C9 at concrete nonzero constants and concrete item lists. -/
theorem claim_C9_from_capacity_requires_nonempty_witness :
    SSTable.createBloomStep (-5) 1 [] = .error () ∧
      (SSTable.createBloomStep (-5) 1 oneItem).isOk = true :=
  ⟨(claim_C9_from_capacity_requires_nonempty (-5) 1 (by norm_num)).1,
   (claim_C9_from_capacity_requires_nonempty (-5) 1 (by norm_num)).2 oneItem
     (by simp [oneItem])⟩

namespace PrefixCompression

theorem take_commonPrefixLen (a b : Bytes) :
    a.take (commonPrefixLen a b) = b.take (commonPrefixLen a b) := by
  induction a generalizing b with
  | nil => cases b <;> rfl
  | cons x as ih =>
    cases b with
    | nil => rfl
    | cons y bs =>
      by_cases hxy : x = y
      · subst hxy
        simp [commonPrefixLen, ih bs]
      · simp [commonPrefixLen, hxy]

theorem decompressGo_compressGo (rest : List Bytes) (lastKey : Bytes) :
    decompressGo lastKey (compressGo lastKey rest).1 (compressGo lastKey rest).2
      = rest := by
  induction rest generalizing lastKey with
  | nil => rfl
  | cons key rest ih =>
    have hkey : lastKey.take (commonPrefixLen lastKey key)
        ++ key.drop (commonPrefixLen lastKey key) = key := by
      rw [take_commonPrefixLen, List.take_append_drop]
    simp only [compressGo, decompressGo, hkey]
    rw [ih key]

end PrefixCompression

/-- C10: for every list of byte-string keys, `decompress_keys` applied to
the output of `compress_keys` returns the original list: the prefix
compression round-trips losslessly. -/
theorem claim_C10_prefix_compression_roundtrip (keys : List Bytes) :
    PrefixCompression.decompress_keys
        (PrefixCompression.compress_keys keys).1
        (PrefixCompression.compress_keys keys).2
      = keys := by
  cases keys with
  | nil => rfl
  | cons k0 rest =>
    simp only [PrefixCompression.compress_keys, PrefixCompression.decompress_keys,
      List.drop_succ_cons, List.drop_zero]
    exact congrArg (k0 :: .) (PrefixCompression.decompressGo_compressGo rest k0)


namespace Msgpack

theorem parseBinLen_encoded (w : Nat) (b rest : Bytes)
    (hw : b.length < 2 ^ (8 * w)) :
    parseBinLen w ((beBytes w b.length ++ b) ++ rest) = some (b, rest) := by
  have hlen : (beBytes w b.length).length = w := beBytes_length _ _
  rw [List.append_assoc]
  unfold parseBinLen
  rw [if_pos (by simp [hlen])]
  rw [List.take_left' hlen, List.drop_left' hlen]
  rw [beDecode_beBytes _ _ hw]
  rw [if_pos (by simp)]
  rw [List.take_left, List.drop_left]

theorem parseBin_packBin (b rest pb : Bytes) (h : packBin b = some pb) :
    parseBin (pb ++ rest) = some (b, rest) := by
  unfold packBin at h
  split at h
  case isTrue h1 =>
    obtain rfl := Option.some.inj h
    rw [List.cons_append]
    simp only [parseBin, if_pos rfl]
    exact parseBinLen_encoded 1 b rest (by norm_num; omega)
  case isFalse h1 =>
    split at h
    case isTrue h2 =>
      obtain rfl := Option.some.inj h
      rw [List.cons_append]
      simp only [parseBin]
      norm_num
      exact parseBinLen_encoded 2 b rest (by norm_num; omega)
    case isFalse h2 =>
      split at h
      case isTrue h3 =>
        obtain rfl := Option.some.inj h
        rw [List.cons_append]
        simp only [parseBin]
        norm_num
        exact parseBinLen_encoded 4 b rest (by norm_num; omega)
      case isFalse h3 => exact absurd h (by simp)

theorem packBin_head (b pb : Bytes) (h : packBin b = some pb) :
    ∃ tag t, pb = tag :: t ∧ tag ≠ 0xc0 := by
  unfold packBin at h
  split at h
  · obtain rfl := Option.some.inj h
    exact ⟨_, _, rfl, by norm_num⟩
  · split at h
    · obtain rfl := Option.some.inj h
      exact ⟨_, _, rfl, by norm_num⟩
    · split at h
      · obtain rfl := Option.some.inj h
        exact ⟨_, _, rfl, by norm_num⟩
      · exact absurd h (by simp)

theorem parseValue_packBin (v rest pb : Bytes) (h : packBin v = some pb) :
    parseValue (pb ++ rest) = some (some v, rest) := by
  obtain ⟨tag, t, rfl, htag⟩ := packBin_head v pb h
  rw [List.cons_append]
  simp only [parseValue, if_neg htag]
  rw [← List.cons_append, parseBin_packBin v rest _ h]
  rfl

theorem unpackRecord_body (key : Bytes) (value : Option Bytes) (tomb : Bool)
    (kb vb : Bytes) (hkb : packBin key = some kb)
    (hvb : ∀ rest : Bytes, parseValue (vb ++ rest) = some (value, rest)) :
    unpackRecord (0x93 :: (kb ++ vb ++ [if tomb then 0xc3 else 0xc2]))
      = some (key, value, tomb) := by
  simp only [unpackRecord, if_pos rfl]
  have h1 : parseBin ((kb ++ vb ++ [if tomb then 0xc3 else 0xc2] : Bytes))
      = some (key, vb ++ [if tomb then 0xc3 else 0xc2]) := by
    rw [List.append_assoc]
    exact parseBin_packBin key _ kb hkb
  rw [h1]
  simp only [Bind.bind, Option.bind]
  rw [hvb [if tomb then 0xc3 else 0xc2]]
  simp only [Bind.bind, Option.bind]
  cases tomb <;> simp [parseBool]

theorem unpackRecord_packRecord (r : Record) (pr : Bytes)
    (h : packRecord r = some pr) : unpackRecord pr = some r := by
  obtain ⟨key, value, tomb⟩ := r
  cases hkb : packBin key with
  | none => simp [packRecord, hkb, Bind.bind, Option.bind] at h
  | some kb =>
    cases value with
    | none =>
      simp only [packRecord, hkb, Bind.bind, Option.bind] at h
      obtain rfl := Option.some.inj h
      exact unpackRecord_body key none tomb kb [0xc0] hkb
        (fun rest => by simp [parseValue])
    | some v =>
      cases hvb : packBin v with
      | none => simp [packRecord, hkb, hvb, Bind.bind, Option.bind] at h
      | some vb =>
        simp only [packRecord, hkb, hvb, Bind.bind, Option.bind] at h
        obtain rfl := Option.some.inj h
        exact unpackRecord_body key (some v) tomb kb vb hkb
          (fun rest => parseValue_packBin v rest vb hvb)

end Msgpack

namespace WAL

theorem appendFrame_elim (r : Record) (f : Bytes) (h : appendFrame r = some f) :
    ∃ payload, Msgpack.packRecord r = some payload
      ∧ payload.length < 4294967296
      ∧ f = beBytes 4 payload.length ++ payload := by
  unfold appendFrame at h
  cases hp : Msgpack.packRecord r with
  | none => rw [hp] at h; simp [Bind.bind, Option.bind] at h
  | some payload =>
    rw [hp] at h
    simp only [Bind.bind, Option.bind] at h
    split at h
    case isTrue hlt => exact ⟨payload, rfl, hlt, (Option.some.inj h).symm⟩
    case isFalse hlt => exact absurd h (by simp)

theorem replayGo_nil (fuel : Nat) : replayGo fuel [] = .ok [] := by
  cases fuel <;> rfl

theorem replayGo_roundtrip (rs : List Record) (frames : List Bytes)
    (h : rs.mapM appendFrame = some frames) (fuel : Nat)
    (hfuel : frames.flatten.length < fuel) :
    replayGo fuel frames.flatten = .ok rs := by
  induction rs generalizing frames fuel with
  | nil =>
    rw [List.mapM_nil] at h
    obtain rfl := Option.some.inj h
    exact replayGo_nil fuel
  | cons r rs ih =>
    rw [List.mapM_cons] at h
    simp only [Bind.bind, Option.bind] at h
    cases hf : appendFrame r with
    | none => rw [hf] at h; exact absurd h (by simp)
    | some f =>
      rw [hf] at h
      cases hfs : rs.mapM appendFrame with
      | none => rw [hfs] at h; exact absurd h (by simp)
      | some fs =>
        rw [hfs] at h
        simp only [pure] at h
        obtain rfl := Option.some.inj h
        obtain ⟨payload, hpack, hlt, rfl⟩ := appendFrame_elim r f hf
        have hflat : (List.flatten ((beBytes 4 payload.length ++ payload) :: fs))
            = beBytes 4 payload.length ++ (payload ++ fs.flatten) := by
          simp [List.flatten_cons, List.append_assoc]
        rw [hflat] at hfuel ⊢
        have hbe4 : (beBytes 4 payload.length).length = 4 := beBytes_length _ _
        obtain ⟨b1, t1, hcons⟩ : ∃ b1 t1,
            beBytes 4 payload.length ++ (payload ++ fs.flatten) = b1 :: t1 := by
          cases hx : beBytes 4 payload.length with
          | nil => rw [hx] at hbe4; simp at hbe4
          | cons b1 t => exact ⟨b1, t ++ (payload ++ fs.flatten), by simp [hx]⟩
        cases fuel with
        | zero => simp at hfuel
        | succ fu =>
          rw [hcons]
          rw [replayGo]
          rw [← hcons]
          have htake : (beBytes 4 payload.length ++ (payload ++ fs.flatten)).take 4
              = beBytes 4 payload.length := List.take_left' hbe4
          have hdrop : (beBytes 4 payload.length ++ (payload ++ fs.flatten)).drop 4
              = payload ++ fs.flatten := List.drop_left' hbe4
          rw [htake, hdrop]
          rw [beDecode_beBytes 4 payload.length (by norm_num; omega)]
          rw [List.take_left, List.drop_left]
          rw [Msgpack.unpackRecord_packRecord r payload hpack]
          have hrest : fs.flatten.length < fu := by
            rw [List.length_append, List.length_append, hbe4] at hfuel
            omega
          rw [ih fs hfs fu hrest]
          all_goals simp [Bind.bind, Except.bind]

end WAL

/-- C7: for every sequence of records appended to a WAL segment (each
append fully written and drained, so each `appendFrame` succeeds),
replaying the segment yields exactly those `(key, value, tombstone)`
records in append order. -/
theorem claim_C7_wal_replay_roundtrip (rs : List Record) (frames : List Bytes)
    (h : rs.mapM WAL.appendFrame = some frames) :
    WAL.replay frames.flatten = .ok rs := by
  unfold WAL.replay
  exact WAL.replayGo_roundtrip rs frames h _ (Nat.lt_succ_self _)

/-- Witness for C7: a live record and a tombstone round-trip through a
concrete segment image. -/
theorem claim_C7_wal_replay_roundtrip_witness :
    ([([107], some [118], false), ([97], none, true)] : List Record).mapM
        WAL.appendFrame
      = some [[0, 0, 0, 8, 147, 196, 1, 107, 196, 1, 118, 194],
              [0, 0, 0, 6, 147, 196, 1, 97, 192, 195]] ∧
    WAL.replay ([[0, 0, 0, 8, 147, 196, 1, 107, 196, 1, 118, 194],
              [0, 0, 0, 6, 147, 196, 1, 97, 192, 195]] : List Bytes).flatten
      = .ok [([107], some [118], false), ([97], none, true)] :=
  ⟨by rfl,
   claim_C7_wal_replay_roundtrip [([107], some [118], false), ([97], none, true)]
     [[0, 0, 0, 8, 147, 196, 1, 107, 196, 1, 118, 194],
      [0, 0, 0, 6, 147, 196, 1, 97, 192, 195]] (by rfl)⟩

/-- C3 (code_bug evidence): a segment holding one well-formed frame
replays to that record, but appending a single trailing byte — a torn
tail — makes `WAL.replay` raise (`int.from_bytes` accepts the short
length read, `fp.read` returns an empty blob, and `msgpack.unpackb`
raises on it) instead of returning the well-formed prefix. -/
theorem claim_C3_torn_tail_raises :
    WAL.replay [0, 0, 0, 8, 147, 196, 1, 107, 196, 1, 118, 194]
        = .ok [([107], some [118], false)]
      ∧ WAL.replay ([0, 0, 0, 8, 147, 196, 1, 107, 196, 1, 118, 194] ++ [0])
        = .error () :=
  ⟨by rfl, by rfl⟩


/-- C2 (code_bug evidence): `SSTable.scan` yields NO records on the table
created from the spec's four-record tombstone-scan scenario — for every
possible on-disk byte content — because the in-loop guard
`pos >= self._index[0][1] if self._index else size` evaluates, by
Python's conditional-expression precedence, to `pos >= index[0][1]`, and
the first sparse-index entry written by `create` is at offset 0, so the
loop breaks before reading anything.  The claim (and the spec's scenario
6, and `tests/test_sstable.py::test_scan`) expects all four records. -/
theorem claim_C2_scan_yields_no_records :
    (∀ file : Bytes, SSTable.scan file (SSTable.createIndex sampleItems) = .ok [])
      ∧ sampleItems.length = 4 := by
  constructor
  · intro file
    have hidx : SSTable.createIndex sampleItems
        = [([107, 101, 121, 49], 0)] := by rfl
    unfold SSTable.scan
    rw [hidx]
    rw [SSTable.scanGo]
    split
    · simp
    · rfl
  · rfl

/-- C5 (code_bug evidence): probing any key above b"k" (here b"z") on the
one-record table `[(b"k", b"v")]` makes the bisection in `_get_sync`
return `lo = 1 = len(index)`, and the linear scan's upper bound the code
then computes is `st_size - _FOOTER.size` — the end of the Bloom blob —
which differs from the stored `data_end` (the start of the index blob)
by the combined length of the index and Bloom blobs, whatever their
contents; the claimed `data_end` terminator (and the claimed early return
once a record key exceeds the probe) is absent from `_get_sync`. -/
theorem claim_C5_get_scan_bound_not_data_end (indexBlob bloomBlob : Bytes)
    (hne : indexBlob ≠ []) :
    SSTable.bisect (SSTable.createIndex oneItem) [122]
        = (SSTable.createIndex oneItem).length
      ∧ SSTable.getEndOff (SSTable.createIndex oneItem)
          (SSTable.bisect (SSTable.createIndex oneItem) [122])
          (SSTable.createFile oneItem indexBlob bloomBlob).length
        = (SSTable.dataEnd oneItem : Int)
            + indexBlob.length + bloomBlob.length
      ∧ SSTable.getEndOff (SSTable.createIndex oneItem)
          (SSTable.bisect (SSTable.createIndex oneItem) [122])
          (SSTable.createFile oneItem indexBlob bloomBlob).length
        ≠ (SSTable.dataEnd oneItem : Int) := by
  have hbi : SSTable.bisect (SSTable.createIndex oneItem) [122] = 1 := by rfl
  have hdata : SSTable.dataEnd oneItem = 11 := by decide
  have hlen : (SSTable.createFile oneItem indexBlob bloomBlob).length
      = 27 + indexBlob.length + bloomBlob.length := by
    simp [SSTable.createFile, List.length_append, beBytes_length, hdata]
    have h10 : (SSTable.recordsBytes oneItem).length = 11 := by decide
    rw [h10]
    omega
  have hilen : 1 ≤ indexBlob.length := by
    cases indexBlob with
    | nil => exact absurd rfl hne
    | cons a t => simp
  have hend : SSTable.getEndOff (SSTable.createIndex oneItem)
      (SSTable.bisect (SSTable.createIndex oneItem) [122])
      (SSTable.createFile oneItem indexBlob bloomBlob).length
        = (SSTable.dataEnd oneItem : Int)
            + indexBlob.length + bloomBlob.length := by
    rw [hbi]
    have hixlen : (SSTable.createIndex oneItem).length = 1 := by rfl
    unfold SSTable.getEndOff
    rw [hixlen, if_neg (by omega), hlen, hdata]
    push_cast
    omega
  refine ⟨by rw [hbi]; rfl, hend, ?_⟩
  rw [hend, hdata]
  push_cast
  omega

/-- Witness for C5 at a one-byte index blob and an empty Bloom blob. -/
theorem claim_C5_get_scan_bound_not_data_end_witness :
    ([145] : Bytes) ≠ [] ∧
      SSTable.getEndOff (SSTable.createIndex oneItem)
          (SSTable.bisect (SSTable.createIndex oneItem) [122])
          (SSTable.createFile oneItem [145] []).length
        ≠ (SSTable.dataEnd oneItem : Int) :=
  ⟨by simp,
   (claim_C5_get_scan_bound_not_data_end [145] [] (by simp)).2.2⟩


/-- C4 (code_bug evidence): two single-record streams share the key
b"a"; stream 0 (the newest priority) holds value b"z" and stream 1 (the
older) holds value b"b".  The merge emits the OLDER record
`(b"a", b"b")`: the heap entries are `(key, record, iterator)`, not
`(key, priority)`, so a key tie is broken by comparing the record tuples
— here the values b"b" < b"z" — rather than by stream priority. -/
theorem claim_C4_merge_emits_older_record :
    Compaction.mergeIterators
        [[([97], some [122], false)], [([97], some [98], false)]]
      = [([97], some [98], false)] := by rfl

/-- C1 (code_bug evidence): `set(b"k", v)` with any value at the flush
threshold writes the memtable to an SSTable; `delete(b"k")` then leaves a
tombstone in the fresh memtable; but `get(b"k")` returns the OLD value
`v` instead of absent, although the last operation on the key was the
delete: the walrus test `(val := self._mem.get(key)) is not None` skips
the memtable tombstone (stored as `None`), and the SSTable loop's
`if val is not None` likewise skips SSTable tombstones, so a tombstone
never masks older values. -/
theorem claim_C1_tombstone_does_not_mask (v : Bytes)
    (hbig : DB.MEMTABLE_LIMIT ≤ 1 + v.length) :
    (do
      let s1 ← DB.set (DB.openDB [] []) [107] v
      let s2 ← DB.delete s1 [107]
      pure (DB.get s2 [107]))
      = some (some v) := by
  have h1 : DB.set (DB.openDB [] []) [107] v
      = some ⟨[], [[([107], some v, false)]], 1,
              [(0, [([107], some v, false)]), (1, [])]⟩ := by
    show DB.set ⟨[], [], 0, [(0, [])]⟩ [107] v = _
    simp only [DB.set, DB.walAppendCur, DB.memSet]
    rw [if_pos (by
      have hms : DB.memSize [([107], some v)] = 1 + v.length := rfl
      rw [hms]; exact hbig)]
    norm_num [DB.flush, DB.sortRecords, DB.insertRecord, DB.walEnsure]
  have h2 : DB.delete
      (⟨[], [[([107], some v, false)]], 1,
        [(0, [([107], some v, false)]), (1, [])]⟩ : DB.DBState) [107]
      = some ⟨[([107], none)], [[([107], some v, false)]], 1,
              [(0, [([107], some v, false)]),
               (1, [([107], none, true)])]⟩ := by
    simp only [DB.delete, DB.walAppendCur, DB.memSet]
    rw [if_neg (by
      have hms : DB.memSize [([107], (none : Option Bytes))] = 1 := rfl
      rw [hms]; norm_num [DB.MEMTABLE_LIMIT])]
    norm_num
  have h3 : DB.get
      (⟨[([107], none)], [[([107], some v, false)]], 1,
        [(0, [([107], some v, false)]),
         (1, [([107], none, true)])]⟩ : DB.DBState) [107]
      = some v := by
    norm_num [DB.get, DB.memGetFlat, DB.firstTableHit, DB.tableGet,
      List.find?]
  rw [show (do
      let s1 ← DB.set (DB.openDB [] []) [107] v
      let s2 ← DB.delete s1 [107]
      pure (DB.get s2 [107]))
    = (DB.set (DB.openDB [] []) [107] v).bind
        (fun s1 => (DB.delete s1 [107]).bind
          (fun s2 => some (DB.get s2 [107]))) from rfl]
  rw [h1]
  simp only [Option.bind]
  rw [h2]
  simp only [Option.bind]
  rw [h3]

/-- Witness for C1 at the concrete threshold-sized value `bigValue`. -/
theorem claim_C1_tombstone_does_not_mask_witness :
    DB.MEMTABLE_LIMIT ≤ 1 + bigValue.length ∧
      (do
        let s1 ← DB.set (DB.openDB [] []) [107] bigValue
        let s2 ← DB.delete s1 [107]
        pure (DB.get s2 [107]))
        = some (some bigValue) :=
  ⟨by rw [show bigValue.length = DB.MEMTABLE_LIMIT from by simp [bigValue]]; omega,
   claim_C1_tombstone_does_not_mask bigValue
     (by rw [show bigValue.length = DB.MEMTABLE_LIMIT from by simp [bigValue]]; omega)⟩


/-- C6 (code_bug evidence): a session with two flushes leaves SSTables
`sst_000000`, `sst_000001` and WAL segments 0, 1, 2 on disk; reopening
computes `seq = max_existing + 1 = 3` as the claim states, but the next
flush then "rotates" the WAL to `len(self._sstables) + 1 = 3` — the very
segment number it just retired (reopened in append mode) — instead of
`seq + 1 = 4`: the new segment's number is NOT one greater than the
largest sequence number in use. -/
theorem claim_C6_flush_reuses_wal_seq (v : Bytes)
    (hbig : DB.MEMTABLE_LIMIT ≤ 1 + v.length) :
    (do
      let s1 ← DB.set (DB.openDB [] []) [65] v
      let s2 ← DB.set s1 [66] v
      let s3 := DB.openDB s2.tables s2.walSegs
      let s4 ← DB.set s3 [67] v
      pure (s3.walSeq, s4.walSeq))
      = some (3, 3) := by
  have hA : DB.set (DB.openDB [] []) [65] v
      = some ⟨[], [[([65], some v, false)]], 1,
              [(0, [([65], some v, false)]), (1, [])]⟩ := by
    show DB.set ⟨[], [], 0, [(0, [])]⟩ [65] v = _
    simp only [DB.set, DB.walAppendCur, DB.memSet]
    rw [if_pos (by
      have hms : DB.memSize [([65], some v)] = 1 + v.length := rfl
      rw [hms]; exact hbig)]
    norm_num [DB.flush, DB.sortRecords, DB.insertRecord, DB.walEnsure]
  have hB : DB.set
      (⟨[], [[([65], some v, false)]], 1,
        [(0, [([65], some v, false)]), (1, [])]⟩ : DB.DBState) [66] v
      = some ⟨[], [[([66], some v, false)], [([65], some v, false)]], 2,
              [(0, [([65], some v, false)]), (1, [([66], some v, false)]),
               (2, [])]⟩ := by
    simp only [DB.set, DB.walAppendCur, DB.memSet]
    rw [if_pos (by
      have hms : DB.memSize [([66], some v)] = 1 + v.length := rfl
      rw [hms]; exact hbig)]
    norm_num [DB.flush, DB.sortRecords, DB.insertRecord, DB.walEnsure]
  have hO : DB.openDB
      ([[([66], some v, false)], [([65], some v, false)]] : List DB.Table)
      ([(0, [([65], some v, false)]), (1, [([66], some v, false)]), (2, [])])
      = ⟨[([65], some v), ([66], some v)],
         [[([66], some v, false)], [([65], some v, false)]], 3,
         [(0, [([65], some v, false)]), (1, [([66], some v, false)]),
          (2, []), (3, [])]⟩ := by
    norm_num [DB.openDB, DB.sortSegs, DB.insertSeg, DB.memSet, DB.walEnsure,
      List.max?]
  have hC : DB.set
      (⟨[([65], some v), ([66], some v)],
        [[([66], some v, false)], [([65], some v, false)]], 3,
        [(0, [([65], some v, false)]), (1, [([66], some v, false)]),
         (2, []), (3, [])]⟩ : DB.DBState) [67] v
      = some ⟨[],
              [[([65], some v, false), ([66], some v, false),
                ([67], some v, false)],
               [([66], some v, false)], [([65], some v, false)]], 3,
              [(0, [([65], some v, false)]), (1, [([66], some v, false)]),
               (2, []), (3, [([67], some v, false)])]⟩ := by
    simp only [DB.set, DB.walAppendCur, DB.memSet]
    norm_num
    rw [if_pos (by
      have hms : DB.memSize
          [([65], some v), ([66], some v), ([67], some v)]
          = (1 + v.length) + ((1 + v.length) + (1 + v.length)) := rfl
      rw [hms]; omega)]
    norm_num [DB.flush, DB.sortRecords, DB.insertRecord, DB.walEnsure,
      bytesLt]
  rw [show (do
      let s1 ← DB.set (DB.openDB [] []) [65] v
      let s2 ← DB.set s1 [66] v
      let s3 := DB.openDB s2.tables s2.walSegs
      let s4 ← DB.set s3 [67] v
      pure (s3.walSeq, s4.walSeq))
    = (DB.set (DB.openDB [] []) [65] v).bind
        (fun s1 => (DB.set s1 [66] v).bind
          (fun s2 => (DB.set (DB.openDB s2.tables s2.walSegs) [67] v).bind
            (fun s4 => some ((DB.openDB s2.tables s2.walSegs).walSeq,
              s4.walSeq)))) from rfl]
  rw [hA]
  simp only [Option.bind]
  rw [hB]
  simp only [Option.bind]
  rw [hO, hC]

/-- Witness for C6 at the concrete threshold-sized value `bigValue`. -/
theorem claim_C6_flush_reuses_wal_seq_witness :
    DB.MEMTABLE_LIMIT ≤ 1 + bigValue.length ∧
      (do
        let s1 ← DB.set (DB.openDB [] []) [65] bigValue
        let s2 ← DB.set s1 [66] bigValue
        let s3 := DB.openDB s2.tables s2.walSegs
        let s4 ← DB.set s3 [67] bigValue
        pure (s3.walSeq, s4.walSeq))
        = some (3, 3) :=
  ⟨by rw [show bigValue.length = DB.MEMTABLE_LIMIT from by simp [bigValue]]; omega,
   claim_C6_flush_reuses_wal_seq bigValue
     (by rw [show bigValue.length = DB.MEMTABLE_LIMIT from by simp [bigValue]]; omega)⟩

end PyLsm
